import Mathlib

/-!
Shallow embedding of the coordination engine in `coordinator.go` (package
`coordination`): marker naming (`CreateWaitFile`), the removal watcher
(`WaitForFile`), the wait loop (`WaitInLine`) and the line-cutting override
(`CutInLine`), together with proofs of the spec-level properties.

A `Coordinator` value carries `Dir` (the shared directory) and `FilePath`
(the caller's own marker path); here both are passed explicitly as the
strings `dir` and `own`.
-/

namespace Coordination

/-- Embedding of Go `path.Join(dir, name)` for a directory path and a clean
entry name (no separators, no dot segments), which is how `coordinator.go`
always invokes it: the result is `dir ++ "/" ++ name`. -/
def pathJoin (dir name : String) : String :=
  dir ++ "/" ++ name

/-- Result of one scan of the sorted directory listing inside `WaitInLine`
(lines 99-111 of coordinator.go): either the caller is first in line
(`holding`, the `return` on line 107), or the loop falls through to watch
the path `toWatch` (which stays `""` when the caller's own marker is not
found in the listing). -/
inductive StepResult where
  | holding
  | watch (toWatch : String)
deriving DecidableEq

/-- Embedding of the `for i, f := range files` scan of `WaitInLine`
(lines 99-111): `prev` is the entry just before the current one (`none` at
index 0), and `toWatch` is the accumulator declared on line 99.  An entry
whose joined path differs from `co.FilePath` is skipped (line 102); a match
at index 0 returns immediately (lines 105-108); a later match sets
`toWatch` to the joined path of the preceding entry (line 110). -/
def scanLoop (dir own : String) : List String → Option String → String → StepResult
  | [], _, toWatch => StepResult.watch toWatch
  | f :: rest, prev, toWatch =>
    if pathJoin dir f = own then
      match prev with
      | none => StepResult.holding
      | some p => scanLoop dir own rest (some f) (pathJoin dir p)
    else scanLoop dir own rest (some f) toWatch

/-- One iteration's decision of `WaitInLine`, taken on a fresh directory
listing `files` (the `os.ReadDir` result of line 94, which Go returns
sorted by filename). -/
def waitStep (dir own : String) (files : List String) : StepResult :=
  scanLoop dir own files none ""

/-- The one happening that resolves the `select` of lines 118-126 in a wait
cycle: the watch channel delivers `nil` (predecessor removed), the watch
channel delivers an error, or the context is cancelled. -/
inductive CycleEvent where
  | removed
  | watchErr (e : String)
  | canceled
deriving DecidableEq

/-- How a `WaitInLine` invocation ends.  `holding` is the `return` of line
107; `fatalRead` is the `log.Fatal(err)` of line 96 (process termination on
a directory-listing failure); `fatalWatch` is the `log.Fatal(err)` of line
121 (process termination on a watch error); `canceled` is the `return` of
line 125.  The Go function has no return value, so no constructor carries
an error result. -/
inductive Outcome where
  | holding
  | fatalRead (e : String)
  | fatalWatch (e : String)
  | canceled
deriving DecidableEq

/-- Filesystem-facing operations performed by the engine, in order.
`readDir` is `os.ReadDir`; `watchAdd p` is the `WaitForFile(p, ...)` call
setting up a watcher (on Linux the underlying `watcher.Add` registers the
parent directory of `p`); `watchClose` is `watcher.Close()`; `removeFile p`
is `os.Remove(p)`; `createFile p` is marker creation. -/
inductive FsOp where
  | readDir
  | watchAdd (p : String)
  | watchClose
  | removeFile (p : String)
  | createFile (p : String)
deriving DecidableEq

/-- Operations that mutate the shared directory. -/
def isMutation : FsOp → Bool
  | FsOp.removeFile _ => true
  | FsOp.createFile _ => true
  | _ => false

/-- Embedding of the `WaitInLine` loop (lines 92-130).  The input supplies,
for each iteration, the result of that iteration's `os.ReadDir` (a fresh
listing, or a listing error) and the event that resolves that iteration's
`select`.  The result is the outcome (`none` while the loop is still
running when the supplied iterations run out) and the ordered list of
filesystem operations performed.  A `ReadDir` error hits `log.Fatal` (line
96); rank 0 returns (line 107); otherwise a watcher is opened on the
scanned target, and the `select` either sees a removal (`nil` on the
channel: `break` out of the `select`, then `watcher.Close()` on line 128
and loop), a watch error (`log.Fatal` on line 121, so the watcher is never
closed), or cancellation (`return` on line 125, which also skips
`watcher.Close()`). -/
def runOps (dir own : String) :
    List (Except String (List String) × CycleEvent) → Option Outcome × List FsOp
  | [] => (none, [])
  | (Except.error e, _) :: _ => (some (Outcome.fatalRead e), [FsOp.readDir])
  | (Except.ok files, ev) :: rest =>
    match waitStep dir own files with
    | StepResult.holding => (some Outcome.holding, [FsOp.readDir])
    | StepResult.watch t =>
      match ev with
      | CycleEvent.removed =>
        let r := runOps dir own rest
        (r.1, FsOp.readDir :: FsOp.watchAdd t :: FsOp.watchClose :: r.2)
      | CycleEvent.watchErr e =>
        (some (Outcome.fatalWatch e), [FsOp.readDir, FsOp.watchAdd t])
      | CycleEvent.canceled =>
        (some Outcome.canceled, [FsOp.readDir, FsOp.watchAdd t])

/-- Embedding of the removal loop of `CutInLine` (lines 141-150) over the
sorted listing `files`; `fail p` says whether `os.Remove` on entry `p`
fails.  Returns the entries actually removed, in order, and the error:
the loop breaks without error at the first entry whose joined path equals
the caller's own marker path (lines 143-144), returns the `os.Remove`
error as soon as one removal fails (lines 146-149), and otherwise removes
the entry and continues. -/
def cutRun (dir own : String) (fail : String → Bool) :
    List String → List String × Option String
  | [] => ([], none)
  | f :: rest =>
    if pathJoin dir f = own then ([], none)
    else if fail f then ([], some f)
    else
      let r := cutRun dir own fail rest
      (f :: r.1, r.2)

/-- Directory contents after `CutInLine` ran on listing `files`: the
original entries minus the ones the removal loop deleted. -/
def afterCut (dir own : String) (fail : String → Bool) (files : List String) :
    List String :=
  files.filter (fun f => decide (f ∉ (cutRun dir own fail files).1))

/-- Messages the notification goroutine of `WaitForFile` (lines 37-56) can
receive from the two fsnotify channels: an event from `watcher.Events`
(with `ok` the channel-receive flag; a closed channel yields the zero-value
event, `name = ""`, `op = 0`, with `ok = false`) or a value from
`watcher.Errors` (a closed channel yields the zero value `none` with
`ok = false`; a live channel yields `some e` with `ok = true`). -/
inductive WMsg where
  | fsEvent (name : String) (op : Nat) (ok : Bool)
  | fsError (e : Option String) (ok : Bool)
deriving DecidableEq

/-- Values fsnotify uses for `Op` bits; `Remove` is `1 << 2`. -/
def removeMask : Nat := 4

/-- Embedding of one turn of the goroutine's `select` (lines 39-54): the
values it sends on `channel`, in order (`none` is Go `nil`).  Events whose
`Name` differs from the watched path are skipped (lines 41-43); then a
closed events channel would send the "fsnotify channel closed abruptly"
error (lines 44-46); then a `Remove` event sends `nil` (lines 47-49).  On
the errors channel the goroutine sends the received value only when `ok`
is false, i.e. only when the channel is closed (lines 50-53). -/
def deliverOne (filePath : String) : WMsg → List (Option String)
  | WMsg.fsEvent name op ok =>
    if name ≠ filePath then []
    else
      (if ok = false then [some "fsnotify channel closed abruptly"] else []) ++
        (if op &&& removeMask = removeMask then [none] else [])
  | WMsg.fsError e ok => if ok = false then [e] else []

/-- Everything the `WaitForFile` goroutine sends on `channel` while
consuming the given message sequence (the `for` loop of lines 38-55 never
exits, so every message is processed). -/
def sentLog (filePath : String) : List WMsg → List (Option String)
  | [] => []
  | m :: rest => deliverOne filePath m ++ sentLog filePath rest

/-- Decimal digit character, as produced by `fmt.Sprintf` with `%d`. -/
def decChar (d : Nat) : Char :=
  Char.ofNat (48 + d)

/-- Decimal representation of a natural number, most significant digit
first, as produced by the `%d` verb of `fmt.Sprintf` on line 76. -/
def decDigits (n : Nat) : List Char :=
  if n < 10 then [decChar n]
  else decDigits (n / 10) ++ [decChar (n % 10)]
decreasing_by exact Nat.div_lt_self (by omega) (by omega)

/-- String form of `%d`. -/
def decString (n : Nat) : String :=
  String.mk (decDigits n)

/-- Name of the wait file created by `CreateWaitFile` (lines 75-89) at
Unix-nano time `t`: `ioutil.TempFile` replaces the trailing `*` of the
pattern `queuer-%d-*` with the random string `rand`. -/
def markerName (t : Nat) (rand : String) : String :=
  "queuer-" ++ decString t ++ "-" ++ rand

/-! Helper lemmas about the embedded operations. -/

/-- Joining the same directory with two different names gives different
paths. -/
theorem pathJoin_inj {dir a b : String} (h : pathJoin dir a = pathJoin dir b) :
    a = b := by
  have hd : (dir ++ "/").data ++ a.data = (dir ++ "/").data ++ b.data := by
    have ha : (pathJoin dir a).data = (dir ++ "/").data ++ a.data := rfl
    have hb : (pathJoin dir b).data = (dir ++ "/").data ++ b.data := rfl
    rw [← ha, ← hb, h]
  exact String.toList_inj.mp (List.append_cancel_left hd)

/-- A scan over entries none of which is the caller's own marker leaves the
accumulated watch target unchanged. -/
theorem scanLoop_no_match (dir own : String) (l : List String)
    (h : ∀ f ∈ l, pathJoin dir f ≠ own) :
    ∀ prev tw, scanLoop dir own l prev tw = StepResult.watch tw := by
  induction l with
  | nil => intro prev tw; rfl
  | cons f rest ih =>
    intro prev tw
    have hf : pathJoin dir f ≠ own := h f (List.mem_cons_self f rest)
    simp only [scanLoop, if_neg hf]
    exact ih (fun g hg => h g (List.mem_cons_of_mem f hg)) (some f) tw

/-- Scanning past a nonempty block of non-matching entries continues with
the last of those entries as the predecessor candidate. -/
theorem scanLoop_skip (dir own : String) :
    ∀ (pre : List String) (hne : pre ≠ [])
      (hpre : ∀ f ∈ pre, pathJoin dir f ≠ own)
      (rest : List String) (prev : Option String) (tw : String),
      scanLoop dir own (pre ++ rest) prev tw =
        scanLoop dir own rest (some (pre.getLast hne)) tw := by
  intro pre
  induction pre with
  | nil => intro hne; exact absurd rfl hne
  | cons a t ih =>
    intro hne hpre rest prev tw
    have ha : pathJoin dir a ≠ own := hpre a (by simp)
    cases t with
    | nil =>
      simp only [List.singleton_append, scanLoop, if_neg ha]
      rfl
    | cons b t2 =>
      have h2 : (b :: t2 : List String) ≠ [] := List.cons_ne_nil b t2
      have hlast : (a :: b :: t2).getLast hne = (b :: t2).getLast h2 := rfl
      rw [hlast]
      simp only [List.cons_append, scanLoop, if_neg ha]
      exact ih h2 (fun f hf => hpre f (by simp [hf])) rest (some a) tw

/-- The removal loop deletes a clean prefix and stops without error at the
caller's own marker. -/
theorem cutRun_clean (dir own : String) (fail : String → Bool) :
    ∀ (pre : List String), (∀ f ∈ pre, pathJoin dir f ≠ own ∧ fail f = false) →
      ∀ (g : String) (post : List String), pathJoin dir g = own →
        cutRun dir own fail (pre ++ g :: post) = (pre, none) := by
  intro pre
  induction pre with
  | nil =>
    intro _ g post hg
    simp only [List.nil_append, cutRun, if_pos hg]
  | cons a t ih =>
    intro h g post hg
    obtain ⟨ha1, ha2⟩ := h a (by simp)
    have ht := ih (fun f hf => h f (by simp [hf])) g post hg
    simp [cutRun, ha1, ha2, ht]

/-- The removal loop deletes a clean prefix and then surfaces the
`os.Remove` error of the first failing entry, leaving it and everything
after it in place. -/
theorem cutRun_fail (dir own : String) (fail : String → Bool) :
    ∀ (pre : List String), (∀ f ∈ pre, pathJoin dir f ≠ own ∧ fail f = false) →
      ∀ (g : String) (post : List String),
        pathJoin dir g ≠ own → fail g = true →
        cutRun dir own fail (pre ++ g :: post) = (pre, some g) := by
  intro pre
  induction pre with
  | nil =>
    intro _ g post hgo hgf
    simp [cutRun, hgo, hgf]
  | cons a t ih =>
    intro h g post hgo hgf
    obtain ⟨ha1, ha2⟩ := h a (by simp)
    have ht := ih (fun f hf => h f (by simp [hf])) g post hgo hgf
    simp [cutRun, ha1, ha2, ht]

/-- When no entry matches the caller's own marker and no removal fails, the
loop deletes every entry. -/
theorem cutRun_all (dir own : String) (fail : String → Bool) :
    ∀ files : List String,
      (∀ f ∈ files, pathJoin dir f ≠ own ∧ fail f = false) →
      cutRun dir own fail files = (files, none) := by
  intro files
  induction files with
  | nil => intro _; rfl
  | cons a t ih =>
    intro h
    obtain ⟨ha1, ha2⟩ := h a (by simp)
    have ht := ih (fun f hf => h f (by simp [hf]))
    simp [cutRun, ha1, ha2, ht]

/-- Directory contents after the cut, computed from a decomposition of the
listing into the removed prefix and the untouched remainder. -/
theorem afterCut_of_split (dir own : String) (fail : String → Bool)
    (files removed rest : List String)
    (hsplit : files = removed ++ rest)
    (hrun : (cutRun dir own fail files).1 = removed)
    (hdisj : ∀ f ∈ rest, f ∉ removed) :
    afterCut dir own fail files = rest := by
  unfold afterCut
  simp only [hrun]
  rw [hsplit, List.filter_append]
  have h1 : (removed.filter fun f => decide (f ∉ removed)) = [] := by
    rw [List.filter_eq_nil_iff]
    intro a ha
    simp [ha]
  have h2 : (rest.filter fun f => decide (f ∉ removed)) = rest := by
    rw [List.filter_eq_self]
    intro a ha
    simpa using hdisj a ha
  rw [h1, h2, List.nil_append]

/-- Lexicographic order is preserved by appending arbitrary tails to two
strictly ordered lists of equal length. -/
theorem lex_append_of_eq_length {α : Type} {r : α → α → Prop} :
    ∀ {l1 l2 : List α}, List.Lex r l1 l2 → l1.length = l2.length →
      ∀ r1 r2 : List α, List.Lex r (l1 ++ r1) (l2 ++ r2) := by
  intro l1 l2 h
  induction h with
  | nil => intro hlen; simp at hlen
  | cons h ih =>
    intro hlen r1 r2
    exact List.Lex.cons (ih (by simpa using hlen) r1 r2)
  | rel h =>
    intro _ r1 r2
    exact List.Lex.rel h

/-- Lexicographic order is preserved by a common prefix. -/
theorem lex_append_left {α : Type} {r : α → α → Prop} (p : List α)
    {l1 l2 : List α} (h : List.Lex r l1 l2) :
    List.Lex r (p ++ l1) (p ++ l2) := by
  induction p with
  | nil => exact h
  | cons a t ih => exact List.Lex.cons ih

/-- Digit characters compare like the digits they encode. -/
theorem decChar_lt {d1 d2 : Nat} (h : d1 < d2) (h2 : d2 < 10) :
    decChar d1 < decChar d2 := by
  have h1 : d1 < 10 := by omega
  interval_cases d1 <;> interval_cases d2 <;> decide

/-- Unfolding of `decDigits` on a single digit. -/
theorem decDigits_lt10 {n : Nat} (h : n < 10) : decDigits n = [decChar n] := by
  rw [decDigits, if_pos h]

/-- Unfolding of `decDigits` on a multi-digit number. -/
theorem decDigits_ge10 {n : Nat} (h : 10 ≤ n) :
    decDigits n = decDigits (n / 10) ++ [decChar (n % 10)] := by
  rw [decDigits, if_neg (by omega)]

/-- Decimal representations are never empty. -/
theorem decDigits_ne_nil (n : Nat) : decDigits n ≠ [] := by
  by_cases h : n < 10
  · rw [decDigits_lt10 h]; simp
  · rw [decDigits_ge10 (by omega)]; simp

/-- Decimal representations of equal width compare lexicographically the
way the numbers compare. -/
theorem decDigits_lex :
    ∀ t2 t1 : Nat, t1 < t2 → (decDigits t1).length = (decDigits t2).length →
      List.Lex (fun a b : Char => a < b) (decDigits t1) (decDigits t2) := by
  intro t2
  induction t2 using Nat.strong_induction_on with
  | _ t2 ih =>
    intro t1 h hlen
    by_cases h10 : t2 < 10
    · have h1 : t1 < 10 := by omega
      rw [decDigits_lt10 h1, decDigits_lt10 h10]
      exact List.Lex.rel (decChar_lt h h10)
    · have h10' : 10 ≤ t2 := by omega
      by_cases h1 : t1 < 10
      · exfalso
        rw [decDigits_lt10 h1, decDigits_ge10 h10'] at hlen
        simp only [List.length_singleton, List.length_append] at hlen
        have := List.length_pos.mpr (decDigits_ne_nil (t2 / 10))
        omega
      · have h1' : 10 ≤ t1 := by omega
        rw [decDigits_ge10 h1', decDigits_ge10 h10'] at hlen ⊢
        simp only [List.length_append, List.length_singleton] at hlen
        have hlen' : (decDigits (t1 / 10)).length = (decDigits (t2 / 10)).length := by
          omega
        have hdivle : t1 / 10 ≤ t2 / 10 := Nat.div_le_div_right (Nat.le_of_lt h)
        rcases Nat.lt_or_ge (t1 / 10) (t2 / 10) with hdiv | hdiv
        · exact lex_append_of_eq_length
            (ih (t2 / 10) (Nat.div_lt_self (by omega) (by omega)) (t1 / 10) hdiv hlen')
            hlen' _ _
        · have heq : t1 / 10 = t2 / 10 := by omega
          have hmod : t1 % 10 < t2 % 10 := by
            have e1 := Nat.div_add_mod t1 10
            have e2 := Nat.div_add_mod t2 10
            omega
          rw [heq]
          exact lex_append_left _ (List.Lex.rel (decChar_lt hmod (Nat.mod_lt _ (by omega))))

/-- Character-list form of a marker name. -/
theorem markerName_toList (t : Nat) (s : String) :
    (markerName t s).toList =
      "queuer-".toList ++ (decDigits t ++ ('-' :: s.toList)) := by
  show ((("queuer-".data ++ decDigits t) ++ ['-']) ++ s.data : List Char) = _
  simp

/-- The wait loop never performs a mutating filesystem operation, whatever
listings and events it observes. -/
theorem runOps_no_mutation (dir own : String) :
    ∀ input : List (Except String (List String) × CycleEvent),
      ∀ op ∈ (runOps dir own input).2, isMutation op = false := by
  intro input
  induction input with
  | nil => intro op h; simp [runOps] at h
  | cons c rest ih =>
    obtain ⟨snap, ev⟩ := c
    cases snap with
    | error e =>
      intro op h
      simp [runOps] at h
      simp [h, isMutation]
    | ok files =>
      intro op h
      cases hstep : waitStep dir own files with
      | holding =>
        simp [runOps, hstep] at h
        simp [h, isMutation]
      | watch t =>
        cases ev with
        | removed =>
          simp only [runOps, hstep, List.mem_cons] at h
          rcases h with rfl | rfl | rfl | h
          · rfl
          · rfl
          · rfl
          · exact ih op h
        | watchErr e =>
          simp [runOps, hstep, List.mem_cons] at h
          rcases h with rfl | rfl
          · rfl
          · rfl
        | canceled =>
          simp [runOps, hstep, List.mem_cons] at h
          rcases h with rfl | rfl
          · rfl
          · rfl

/-! Claim theorems. -/

/-- C1: with the caller's own marker present in the sorted listing
(decomposed as `pre ++ g :: post` with the marker entry `g` at index
`pre.length`), a `WaitInLine` iteration on that listing returns success
(`holding`) when the index is 0, and otherwise opens its watch on exactly
the immediate predecessor `orderedNames[index-1]` (the last entry of
`pre`); after a removal wakeup the loop continues as `runOps` on the
remaining inputs, so the next cycle's rank comes from the next, fresh
listing and nothing is cached across cycles. -/
theorem waitInLine_fresh_rank_and_predecessor
    (dir own : String) (pre post : List String) (g : String)
    (rest : List (Except String (List String) × CycleEvent)) (ev : CycleEvent)
    (hsort : List.Pairwise (fun a b => a < b) (pre ++ g :: post))
    (hg : pathJoin dir g = own)
    (hpre : ∀ f ∈ pre, pathJoin dir f ≠ own)
    (hpost : ∀ f ∈ post, pathJoin dir f ≠ own) :
    (pre = [] →
      runOps dir own ((Except.ok (pre ++ g :: post), ev) :: rest) =
        (some Outcome.holding, [FsOp.readDir])) ∧
    ∀ hne : pre ≠ [],
      waitStep dir own (pre ++ g :: post) =
        StepResult.watch (pathJoin dir (pre.getLast hne)) ∧
      runOps dir own ((Except.ok (pre ++ g :: post), CycleEvent.removed) :: rest) =
        ((runOps dir own rest).1,
          FsOp.readDir :: FsOp.watchAdd (pathJoin dir (pre.getLast hne)) ::
            FsOp.watchClose :: (runOps dir own rest).2) := by
  constructor
  · intro hpe
    subst hpe
    have hstep : waitStep dir own (g :: post) = StepResult.holding := by
      simp only [waitStep, scanLoop, if_pos hg]
    simp [runOps, hstep]
  · intro hne
    have hstep : waitStep dir own (pre ++ g :: post) =
        StepResult.watch (pathJoin dir (pre.getLast hne)) := by
      unfold waitStep
      rw [scanLoop_skip dir own pre hne hpre (g :: post) none ""]
      simp only [scanLoop, if_pos hg]
      exact scanLoop_no_match dir own post hpost (some g) _
    refine ⟨hstep, ?_⟩
    simp [runOps, hstep]

/-- Witness for C1 at the listing `["a", "b"]` with own marker `d/b` at
index 1: the watched entry is the immediate predecessor `d/a` and the loop
continues after its removal. -/
theorem waitInLine_fresh_rank_and_predecessor_witness :
    waitStep "d" "d/b" ["a", "b"] = StepResult.watch "d/a" ∧
    runOps "d" "d/b" [(Except.ok ["a", "b"], CycleEvent.removed)] =
      (none, [FsOp.readDir, FsOp.watchAdd "d/a", FsOp.watchClose]) := by
  have h := (waitInLine_fresh_rank_and_predecessor "d" "d/b" ["a"] [] "b" []
    CycleEvent.removed (by simp <;> decide) rfl (by decide) (by decide)).2
    (by decide)
  obtain ⟨h1, h2⟩ := h
  exact ⟨h1, h2.trans (by decide)⟩

/-- C2: on a sorted, duplicate-free listing containing the caller's own
marker entry `g`, `CutInLine` with no removal failures removes exactly the
entries sorting strictly before `g` (the prefix `pre`), reports no error,
and leaves the directory as `g :: post`: every preceding marker is absent,
the caller's marker is the smallest present, and everything at or after it
is untouched. -/
theorem cutInLine_removes_exactly_preceding
    (dir own : String) (pre post : List String) (g : String)
    (hsort : List.Pairwise (fun a b => a < b) (pre ++ g :: post))
    (hg : pathJoin dir g = own) :
    cutRun dir own (fun _ => false) (pre ++ g :: post) = (pre, none) ∧
    (∀ f ∈ pre, f < g) ∧ (∀ f ∈ post, g < f) ∧
    afterCut dir own (fun _ => false) (pre ++ g :: post) = g :: post := by
  have hsort' := hsort
  rw [List.pairwise_append] at hsort'
  have hprelt : ∀ f ∈ pre, f < g := fun f hf =>
    hsort'.2.2 f hf g (List.mem_cons_self g post)
  have hpostgt : ∀ f ∈ post, g < f := by
    have hp := hsort'.2.1
    rw [List.pairwise_cons] at hp
    exact fun f hf => hp.1 f hf
  have hpre : ∀ f ∈ pre,
      pathJoin dir f ≠ own ∧ (fun _ : String => false) f = false := by
    intro f hf
    refine ⟨fun hjoin => ?_, rfl⟩
    have hfg : f = g := pathJoin_inj (hjoin.trans hg.symm)
    have hlt := hprelt f hf
    rw [hfg] at hlt
    exact lt_irrefl g hlt
  have hrun := cutRun_clean dir own (fun _ => false) pre hpre g post hg
  refine ⟨hrun, hprelt, hpostgt, ?_⟩
  apply afterCut_of_split dir own _ _ pre (g :: post) rfl (by rw [hrun])
  intro f hf hfpre
  rcases List.mem_cons.mp hf with rfl | hfpost
  · exact lt_irrefl f (hprelt f hfpre)
  · exact lt_irrefl f (lt_trans (hprelt f hfpre) (hpostgt f hfpost))

/-- Witness for C2 at the listing `["a", "b", "c"]` with own marker `d/b`:
only `a` is removed and `b`, `c` stay. -/
theorem cutInLine_removes_exactly_preceding_witness :
    cutRun "d" "d/b" (fun _ => false) ["a", "b", "c"] = (["a"], none) ∧
    afterCut "d" "d/b" (fun _ => false) ["a", "b", "c"] = ["b", "c"] := by
  have h := cutInLine_removes_exactly_preceding "d" "d/b" ["a"] ["c"] "b"
    (by simp <;> decide) rfl
  exact ⟨h.1, h.2.2.2⟩

/-- C3: the claim that `WaitForFile` delivers exactly one terminal event
(`nil` on removal of the watched path, or the error) fails on the code.
The `watcher.Errors` branch sends only when the channel receive reports
closed (`if !ok`), so a genuine watch error (first conjunct) is silently
dropped and nothing is ever delivered for it, while a closed errors
channel (second conjunct) delivers the zero value `nil`, indistinguishable
from a successful removal; and two `Remove` notifications for the watched
path (possible on Linux, where the parent directory is watched and the
file can be recreated) deliver two events (third conjunct). -/
theorem waitForFile_drops_errors :
    sentLog "f" [WMsg.fsError (some "watch failure") true] = [] ∧
    sentLog "f" [WMsg.fsError none false] = [none] ∧
    sentLog "f" [WMsg.fsEvent "f" removeMask true, WMsg.fsEvent "f" removeMask true] =
      [none, none] := by decide

/-- C4 counterexample: with the caller's own marker absent from the
listing (`d/z` is not the join of `d` with `a` or `b`), `WaitInLine` does
not surface any error: the scan leaves `toWatch` empty, the iteration
watches the empty path, and after a wakeup the loop just continues
(outcome still pending), contradicting the claimed `SelfMarkerMissing`
failure. -/
theorem waitInLine_missing_marker_watches_empty :
    runOps "d" "d/z" [(Except.ok ["a", "b"], CycleEvent.removed)] =
      (none, [FsOp.readDir, FsOp.watchAdd "", FsOp.watchClose]) := by decide

/-- C4 (amended): when the caller's own marker is absent from the listing,
the scan of `WaitInLine` finds no match, leaves the watch target as the
empty string, watches that empty path and loops; no distinct error exists
or is surfaced (the code has no `SelfMarkerMissing` handling). -/
theorem waitInLine_missing_marker_no_error
    (dir own : String) (files : List String)
    (rest : List (Except String (List String) × CycleEvent))
    (h : ∀ f ∈ files, pathJoin dir f ≠ own) :
    waitStep dir own files = StepResult.watch "" ∧
    runOps dir own ((Except.ok files, CycleEvent.removed) :: rest) =
      ((runOps dir own rest).1,
        FsOp.readDir :: FsOp.watchAdd "" :: FsOp.watchClose ::
          (runOps dir own rest).2) := by
  have hstep : waitStep dir own files = StepResult.watch "" :=
    scanLoop_no_match dir own files h none ""
  exact ⟨hstep, by simp [runOps, hstep]⟩

/-- Witness for the amended C4 at the listing `["a", "b"]` with absent own
marker `d/z`. -/
theorem waitInLine_missing_marker_no_error_witness :
    waitStep "d" "d/z" ["a", "b"] = StepResult.watch "" ∧
    runOps "d" "d/z" [(Except.ok ["a", "b"], CycleEvent.removed)] =
      ((runOps "d" "d/z" []).1,
        FsOp.readDir :: FsOp.watchAdd "" :: FsOp.watchClose ::
          (runOps "d" "d/z" []).2) :=
  waitInLine_missing_marker_no_error "d" "d/z" ["a", "b"] [] (by decide)

/-- C5 counterexample: a directory-listing failure inside the wait loop
ends in `Outcome.fatalRead`, the embedding of the `log.Fatal(err)` call on
line 96 that terminates the host process; no error value is returned to
the caller (the `Outcome` type of the code's `WaitInLine`, which returns
nothing, has no error-result constructor), contradicting the claim that
failures are returned and the process is never terminated. -/
theorem waitInLine_fatal_counterexample :
    runOps "d" "d/m" [(Except.error "boom", CycleEvent.removed)] =
      (some (Outcome.fatalRead "boom"), [FsOp.readDir]) := by decide

/-- C5 (amended): failures discovered inside the wait loop are not
returned: a `ReadDir` failure hits `log.Fatal` (line 96) and a watch error
hits `log.Fatal` (line 121), both terminating the host process; the
watcher opened in the failing cycle is not closed. -/
theorem waitInLine_fatal_on_errors
    (dir own e t : String) (files : List String)
    (rest rest2 : List (Except String (List String) × CycleEvent))
    (ev : CycleEvent)
    (hw : waitStep dir own files = StepResult.watch t) :
    runOps dir own ((Except.error e, ev) :: rest) =
      (some (Outcome.fatalRead e), [FsOp.readDir]) ∧
    runOps dir own ((Except.ok files, CycleEvent.watchErr e) :: rest2) =
      (some (Outcome.fatalWatch e), [FsOp.readDir, FsOp.watchAdd t]) :=
  ⟨by simp [runOps], by simp [runOps, hw]⟩

/-- Witness for the amended C5. -/
theorem waitInLine_fatal_on_errors_witness :
    runOps "d" "d/b" [(Except.error "boom", CycleEvent.removed)] =
      (some (Outcome.fatalRead "boom"), [FsOp.readDir]) ∧
    runOps "d" "d/b" [(Except.ok ["a", "b"], CycleEvent.watchErr "boom")] =
      (some (Outcome.fatalWatch "boom"), [FsOp.readDir, FsOp.watchAdd "d/a"]) :=
  waitInLine_fatal_on_errors "d" "d/b" "boom" "d/a" ["a", "b"] [] []
    CycleEvent.removed (by decide)

/-- C6 counterexample: creation times 999 and 1000 produce marker names
that sort in the opposite order of creation, because the `%d` time
component is not fixed-width: `queuer-1000-b` sorts before `queuer-999-a`
although 999 < 1000. -/
theorem markerName_order_inversion :
    999 < 1000 ∧ markerName 1000 "b" < markerName 999 "a" := by
  refine ⟨by norm_num, ?_⟩
  rw [String.lt_iff_toList_lt]
  simp [markerName, decString, decDigits, decChar]
  decide

/-- C6 (amended): marker names sort in creation order whenever the decimal
time components have equal width (as is the case for Unix-nano timestamps
of the same era, which all have 19 digits); in general the `%d` encoding
is not fixed-width, so timestamps with different digit counts can sort
opposite to creation order. -/
theorem markerName_lt_of_eq_width (t1 t2 : Nat) (s1 s2 : String)
    (h : t1 < t2) (hw : (decDigits t1).length = (decDigits t2).length) :
    markerName t1 s1 < markerName t2 s2 := by
  rw [String.lt_iff_toList_lt, markerName_toList, markerName_toList]
  show List.Lex (fun a b : Char => a < b) _ _
  exact lex_append_left _
    (lex_append_of_eq_length (decDigits_lex t2 t1 h hw) hw _ _)

/-- Witness for the amended C6 at times 123 < 124 of equal width. -/
theorem markerName_lt_of_eq_width_witness :
    123 < 124 ∧ (decDigits 123).length = (decDigits 124).length ∧
    markerName 123 "x" < markerName 124 "y" :=
  ⟨by norm_num, by simp [decDigits],
    markerName_lt_of_eq_width 123 124 "x" "y" (by norm_num) (by simp [decDigits])⟩

/-- C7: on a duplicate-free listing decomposed as `pre ++ g :: post` where
every entry of `pre` is neither the caller's own marker nor a failing
removal, and `g` (not the own marker) is the first entry whose removal
fails, `CutInLine` returns that removal's error immediately: the entries
of `pre` stay removed, and `g` and everything after it — including all
entries at or after the caller's own marker — are untouched. -/
theorem cutInLine_partial_failure
    (dir own : String) (fail : String → Bool) (pre post : List String)
    (g : String)
    (hnodup : (pre ++ g :: post).Nodup)
    (hpre : ∀ f ∈ pre, pathJoin dir f ≠ own ∧ fail f = false)
    (hgo : pathJoin dir g ≠ own) (hgf : fail g = true) :
    cutRun dir own fail (pre ++ g :: post) = (pre, some g) ∧
    afterCut dir own fail (pre ++ g :: post) = g :: post := by
  have hrun := cutRun_fail dir own fail pre hpre g post hgo hgf
  refine ⟨hrun, ?_⟩
  apply afterCut_of_split dir own fail _ pre (g :: post) rfl (by rw [hrun])
  rw [List.nodup_append] at hnodup
  intro f hf hfpre
  exact hnodup.2.2 hfpre hf

/-- Witness for C7: removing fails at `b`, so only `a` is removed and `b`,
`c` stay. -/
theorem cutInLine_partial_failure_witness :
    cutRun "d" "d/c" (fun f => f == "b") ["a", "b", "c"] = (["a"], some "b") ∧
    afterCut "d" "d/c" (fun f => f == "b") ["a", "b", "c"] = ["b", "c"] :=
  cutInLine_partial_failure "d" "d/c" (fun f => f == "b") ["a"] ["c"] "b"
    (by decide) (by decide) (by decide) (by decide)

/-- C8 counterexample: cancelling a wait cycle returns (`canceled`) with a
watcher opened (`watchAdd`) and never closed (no `watchClose` among the
performed operations), so the subscription is not released on the
cancellation exit path, contradicting release on every exit path. -/
theorem waitInLine_cancel_leaks_watcher :
    (runOps "d" "d/b" [(Except.ok ["a", "b"], CycleEvent.canceled)]).1 =
      some Outcome.canceled ∧
    FsOp.watchAdd "d/a" ∈
      (runOps "d" "d/b" [(Except.ok ["a", "b"], CycleEvent.canceled)]).2 ∧
    FsOp.watchClose ∉
      (runOps "d" "d/b" [(Except.ok ["a", "b"], CycleEvent.canceled)]).2 := by
  decide

/-- C8 (amended): only the normal predecessor-removal path closes the
cycle's watcher (`watcher.Close()` on line 128, after the `select`); the
cancellation path returns and the watch-error path terminates the process,
both without closing the watcher. -/
theorem waitInLine_watcher_close_paths
    (dir own t e : String) (files : List String)
    (rest rest2 rest3 : List (Except String (List String) × CycleEvent))
    (hw : waitStep dir own files = StepResult.watch t) :
    (runOps dir own ((Except.ok files, CycleEvent.removed) :: rest)).2 =
      FsOp.readDir :: FsOp.watchAdd t :: FsOp.watchClose ::
        (runOps dir own rest).2 ∧
    runOps dir own ((Except.ok files, CycleEvent.canceled) :: rest2) =
      (some Outcome.canceled, [FsOp.readDir, FsOp.watchAdd t]) ∧
    runOps dir own ((Except.ok files, CycleEvent.watchErr e) :: rest3) =
      (some (Outcome.fatalWatch e), [FsOp.readDir, FsOp.watchAdd t]) :=
  ⟨by simp [runOps, hw], by simp [runOps, hw], by simp [runOps, hw]⟩

/-- Witness for the amended C8. -/
theorem waitInLine_watcher_close_paths_witness :
    (runOps "d" "d/b" [(Except.ok ["a", "b"], CycleEvent.removed)]).2 =
      FsOp.readDir :: FsOp.watchAdd "d/a" :: FsOp.watchClose ::
        (runOps "d" "d/b" []).2 ∧
    runOps "d" "d/b" [(Except.ok ["a", "b"], CycleEvent.canceled)] =
      (some Outcome.canceled, [FsOp.readDir, FsOp.watchAdd "d/a"]) ∧
    runOps "d" "d/b" [(Except.ok ["a", "b"], CycleEvent.watchErr "x")] =
      (some (Outcome.fatalWatch "x"), [FsOp.readDir, FsOp.watchAdd "d/a"]) :=
  waitInLine_watcher_close_paths "d" "d/b" "d/a" "x" ["a", "b"] [] [] []
    (by decide)

/-- C9: a `WaitInLine` run that ends by cancellation performed no mutating
filesystem operation: it neither created nor removed any marker (in fact
the wait loop performs only `ReadDir` and watcher operations on every
path), so the directory contents, the caller's own marker included, are
exactly as before. -/
theorem waitInLine_cancel_no_mutation
    (dir own : String) (input : List (Except String (List String) × CycleEvent))
    (h : (runOps dir own input).1 = some Outcome.canceled) :
    ∀ op ∈ (runOps dir own input).2, isMutation op = false :=
  fun op hop => runOps_no_mutation dir own input op hop

/-- Witness for C9 at a concrete cancelled run. -/
theorem waitInLine_cancel_no_mutation_witness :
    (runOps "d" "d/b" [(Except.ok ["a", "b"], CycleEvent.canceled)]).1 =
      some Outcome.canceled ∧
    ∀ op ∈ (runOps "d" "d/b" [(Except.ok ["a", "b"], CycleEvent.canceled)]).2,
      isMutation op = false :=
  ⟨by decide,
    waitInLine_cancel_no_mutation "d" "d/b"
      [(Except.ok ["a", "b"], CycleEvent.canceled)] (by decide)⟩

/-- C10: when no listing entry joins to the caller's recorded marker path,
the `CutInLine` loop's stop condition (exact equality with `co.FilePath`)
never fires, so every entry in the directory is removed and the directory
is left empty. -/
theorem cutInLine_missing_marker_removes_all
    (dir own : String) (files : List String)
    (h : ∀ f ∈ files, pathJoin dir f ≠ own) :
    cutRun dir own (fun _ => false) files = (files, none) ∧
    afterCut dir own (fun _ => false) files = [] := by
  have hrun := cutRun_all dir own (fun _ => false) files (fun f hf => ⟨h f hf, rfl⟩)
  refine ⟨hrun, ?_⟩
  apply afterCut_of_split dir own _ files files [] (by simp) (by rw [hrun])
  simp

/-- Witness for C10 with own marker `d/zzz` absent: both entries are
removed. -/
theorem cutInLine_missing_marker_removes_all_witness :
    cutRun "d" "d/zzz" (fun _ => false) ["a", "b"] = (["a", "b"], none) ∧
    afterCut "d" "d/zzz" (fun _ => false) ["a", "b"] = [] :=
  cutInLine_missing_marker_removes_all "d" "d/zzz" ["a", "b"] (by decide)

end Coordination
